import Mathlib

/-!
Verification development for the `celo-org/snark` repository.

The embedding covers:
* `r1cs-core/src/lib.rs`: the `Index` tagged union, its `Ord`/`PartialOrd`
  implementations, its `CanonicalSerialize`/`CanonicalDeserialize`/
  `ConstantSerializedSize` implementations, the `Variable` wrapper, and the
  `LinearCombination` storage type.
* `snark/src/lib.rs`: the `SNARK`, `CircuitSpecificSetupSNARK` and
  `UniversalSetupSNARK` trait family together with `UniversalSetupIndexResult`.

Machine integers (`usize`) are modelled as `Nat` with explicit `2 ^ 64`
bounds where overflow or fixed-width encoding matters.  Byte streams are
`List Nat` with every byte below 256.  Fallible operations return `Option`
or `Except`.
-/

namespace SnarkSpec

/-- Embeds `enum Index { Input(usize), Aux(usize) }` from r1cs-core.
The `usize` payload is a `Nat`; width constraints appear as explicit
hypotheses where they matter. -/
inductive Index where
  | Input : Nat → Index
  | Aux : Nat → Index
deriving DecidableEq, Repr

/-- The wrapped integer of an `Index`, used to state `usize` range bounds. -/
def Index.inner : Index → Nat
  | .Input n => n
  | .Aux n => n

/-- Embeds `impl Ord for Index` (`cmp`): same-tag indices compare by the
wrapped integer, `Input` is below `Aux`. -/
def Index.cmp : Index → Index → Ordering
  | .Input idx1, .Input idx2 => compare idx1 idx2
  | .Aux idx1, .Aux idx2 => compare idx1 idx2
  | .Input _, .Aux _ => .lt
  | .Aux _, .Input _ => .gt

/-- Embeds `impl PartialOrd for Index`, whose `partial_cmp` is
`Some(self.cmp(other))`. -/
def Index.partCmp (a b : Index) : Option Ordering := some (Index.cmp a b)

/-- Width of `usize` in bytes on the 64-bit targets the crate assumes. -/
def usizeSize : Nat := 8

/-- Modelled from the spec: the fixed-width little-endian byte encoding of an
unsigned machine word, as provided by the external `algebra_core`
serialization collaborator (`usize::serialize`, not under `src/`).
`natToLEBytes w v` emits exactly `w` bytes. -/
def natToLEBytes : Nat → Nat → List Nat
  | 0, _ => []
  | w + 1, v => v % 256 :: natToLEBytes w (v / 256)

/-- Modelled from the spec: decoding of a little-endian byte list, inverse to
`natToLEBytes` (external `usize::deserialize`, not under `src/`). -/
def leBytesToNat : List Nat → Nat
  | [] => 0
  | b :: rest => b + 256 * leBytesToNat rest

/-- Modelled from the spec: `bool::serialize` of the external `algebra_core`
collaborator writes one tag byte (`1` for true, `0` for false). -/
def serializeBool (b : Bool) : List Nat := [if b then 1 else 0]

/-- Modelled from the spec: `usize::serialize` writes the fixed-width
encoding of the machine word. -/
def serializeUsize (n : Nat) : List Nat := natToLEBytes usizeSize n

/-- Embeds `CanonicalSerialize for Index`: the match serializes the tag
(`true` for `Input`, `false` for `Aux`), then the inner integer. -/
def Index.serialize : Index → List Nat
  | .Input inner => serializeBool true ++ serializeUsize inner
  | .Aux inner => serializeBool false ++ serializeUsize inner

/-- Modelled from the spec: `usize::SERIALIZED_SIZE` of the external
serialization collaborator, the byte width of a machine word. -/
def usizeSERIALIZED_SIZE : Nat := usizeSize

/-- Embeds `ConstantSerializedSize for Index`:
`SERIALIZED_SIZE = usize::SERIALIZED_SIZE + 1`. -/
def Index.SERIALIZED_SIZE : Nat := usizeSERIALIZED_SIZE + 1

/-- Embeds `ConstantSerializedSize for Index`:
`UNCOMPRESSED_SIZE = Self::SERIALIZED_SIZE`. -/
def Index.UNCOMPRESSED_SIZE : Nat := Index.SERIALIZED_SIZE

/-- Embeds `Index::serialized_size`, which returns `Self::SERIALIZED_SIZE`. -/
def Index.serialized_size (_ : Index) : Nat := Index.SERIALIZED_SIZE

/-- Modelled from the spec: `bool::deserialize` of the external collaborator
reads one tag byte back as a boolean. -/
def deserializeBool : List Nat → Option (Bool × List Nat)
  | [] => none
  | b :: rest =>
    if b = 0 then some (false, rest)
    else if b = 1 then some (true, rest)
    else none

/-- Modelled from the spec: `usize::deserialize` reads the fixed-width
machine-word encoding back. -/
def deserializeUsize (bytes : List Nat) : Option (Nat × List Nat) :=
  if usizeSize ≤ bytes.length then
    some (leBytesToNat (bytes.take usizeSize), bytes.drop usizeSize)
  else none

/-- Embeds `CanonicalDeserialize for Index`: read the tag boolean, read the
inner integer, rebuild `Input`/`Aux` from the tag. -/
def Index.deserialize (bytes : List Nat) : Option (Index × List Nat) :=
  match deserializeBool bytes with
  | none => none
  | some (is_input, rest) =>
    match deserializeUsize rest with
    | none => none
    | some (inner, rest2) =>
      some (if is_input then (Index.Input inner, rest2) else (Index.Aux inner, rest2))

/-- `Index.cmp` returns `eq` exactly on equal indices. -/
theorem Index.cmp_eq_iff (a b : Index) : Index.cmp a b = .eq ↔ a = b := by
  cases a <;> cases b <;>
    simp [Index.cmp, Nat.compare_eq_eq]

/-- `Index.cmp` returns `gt` exactly when the flipped comparison is `lt`. -/
theorem Index.cmp_gt_iff (a b : Index) : Index.cmp a b = .gt ↔ Index.cmp b a = .lt := by
  cases a <;> cases b <;>
    simp [Index.cmp, Nat.compare_eq_lt, Nat.compare_eq_gt]

/-- The strict part of the `Index` order is transitive. -/
theorem Index.cmp_lt_trans {a b c : Index} (hab : Index.cmp a b = .lt)
    (hbc : Index.cmp b c = .lt) : Index.cmp a c = .lt := by
  cases a <;> cases b <;> cases c <;>
    simp_all [Index.cmp, Nat.compare_eq_lt] <;> omega

/-- Strictly ordered indices are distinct. -/
theorem Index.cmp_lt_ne {a b : Index} (h : Index.cmp a b = .lt) : a ≠ b := by
  intro he
  subst he
  cases a <;> simp [Index.cmp, Nat.compare_eq_lt] at h

/-- `natToLEBytes w` always emits exactly `w` bytes. -/
theorem length_natToLEBytes (w v : Nat) : (natToLEBytes w v).length = w := by
  induction w generalizing v with
  | zero => rfl
  | succ w ih => simp [natToLEBytes, ih]

/-- Decoding the fixed-width encoding recovers the value modulo `256 ^ w`. -/
theorem leBytesToNat_natToLEBytes (w v : Nat) :
    leBytesToNat (natToLEBytes w v) = v % 256 ^ w := by
  induction w generalizing v with
  | zero => simp [natToLEBytes, leBytesToNat, Nat.mod_one]
  | succ w ih =>
    have hmul : v % (256 * 256 ^ w) = v % 256 + 256 * (v / 256 % 256 ^ w) := Nat.mod_mul
    calc leBytesToNat (natToLEBytes (w + 1) v)
        = v % 256 + 256 * leBytesToNat (natToLEBytes w (v / 256)) := rfl
      _ = v % 256 + 256 * (v / 256 % 256 ^ w) := by rw [ih]
      _ = v % (256 * 256 ^ w) := hmul.symm
      _ = v % 256 ^ (w + 1) := by ring_nf

/-- Embeds `pub struct Variable(Index)` from r1cs-core. -/
structure Variable where
  idx : Index
deriving DecidableEq, Repr

/-- Embeds `Variable::new_unchecked`, which wraps an arbitrary index with no
validation. -/
def Variable.new_unchecked (idx : Index) : Variable := ⟨idx⟩

/-- Embeds `Variable::get_unchecked`, which returns the wrapped index. -/
def Variable.get_unchecked (v : Variable) : Index := v.idx

/-- Embeds the derived `Ord for Variable`, which for a one-field tuple struct
delegates to the inner `Index` comparison. -/
def Variable.cmp (a b : Variable) : Ordering := Index.cmp a.idx b.idx

/-- Embeds `LinearCombination<F>(pub SmallVec<F>)`: the backing storage of
`(Variable, coefficient)` pairs.  The `SmallVec` inline capacity of 16 is a
performance detail with no functional content, so the storage is a list. -/
abbrev LinearCombination (F : Type) : Type := List (Variable × F)

/-- Modelled from the spec: the term-insertion operation of
`impl_lc.rs`, which is not under `src/`.  Insertion keeps the sequence
sorted by the `Index` order; a term hitting an existing variable replaces
it with the field-sum of the old and new coefficients. -/
def LinearCombination.insertTerm {F : Type} [Add F] :
    LinearCombination F → F → Variable → LinearCombination F
  | [], coeff, var => [(var, coeff)]
  | (v, c) :: rest, coeff, var =>
    match Index.cmp var.idx v.idx with
    | .lt => (var, coeff) :: (v, c) :: rest
    | .eq => (v, c + coeff) :: rest
    | .gt => (v, c) :: LinearCombination.insertTerm rest coeff var

/-- The documented storage invariant of `LinearCombination`: variables occur
in strictly increasing `Index` order. -/
def LinearCombination.Sorted {F : Type} (lc : LinearCombination F) : Prop :=
  List.Pairwise (fun p q => Index.cmp p.1.idx q.1.idx = Ordering.lt) lc

/-- Every first component of an inserted list is the new variable or one of
the old ones. -/
theorem LinearCombination.fst_mem_insertTerm {F : Type} [Add F]
    {lc : LinearCombination F} {coeff : F} {var : Variable} {p : Variable × F}
    (hp : p ∈ LinearCombination.insertTerm lc coeff var) :
    p.1 = var ∨ ∃ c0, (p.1, c0) ∈ lc := by
  induction lc with
  | nil =>
    simp only [LinearCombination.insertTerm, List.mem_singleton] at hp
    exact Or.inl (by rw [hp])
  | cons head rest ih =>
    obtain ⟨v, c⟩ := head
    simp only [LinearCombination.insertTerm] at hp
    rcases hcmp : Index.cmp var.idx v.idx with hlt | heq | hgt <;> rw [hcmp] at hp
    · rcases List.mem_cons.mp hp with h1 | h2
      · exact Or.inl (by rw [h1])
      · rcases List.mem_cons.mp h2 with h3 | h4
        · exact Or.inr ⟨c, by rw [h3]; exact List.mem_cons_self _ _⟩
        · exact Or.inr ⟨p.2, List.mem_cons_of_mem _ (by simpa using h4)⟩
    · rcases List.mem_cons.mp hp with h1 | h2
      · exact Or.inr ⟨c, by rw [h1]; exact List.mem_cons_self _ _⟩
      · exact Or.inr ⟨p.2, List.mem_cons_of_mem _ (by simpa using h2)⟩
    · rcases List.mem_cons.mp hp with h1 | h2
      · exact Or.inr ⟨c, by rw [h1]; exact List.mem_cons_self _ _⟩
      · rcases ih h2 with h3 | ⟨c0, h4⟩
        · exact Or.inl h3
        · exact Or.inr ⟨c0, List.mem_cons_of_mem _ h4⟩

/-- Term insertion preserves the strict sortedness invariant. -/
theorem LinearCombination.insertTerm_sorted {F : Type} [Add F]
    {lc : LinearCombination F} (h : lc.Sorted) (coeff : F) (var : Variable) :
    (LinearCombination.insertTerm lc coeff var).Sorted := by
  induction lc with
  | nil => exact List.pairwise_singleton _ _
  | cons head rest ih =>
    obtain ⟨v, c⟩ := head
    rw [LinearCombination.Sorted, List.pairwise_cons] at h
    obtain ⟨hhead, hrest⟩ := h
    show LinearCombination.Sorted (LinearCombination.insertTerm ((v, c) :: rest) coeff var)
    rw [LinearCombination.insertTerm]
    rcases hcmp : Index.cmp var.idx v.idx with hlt | heq | hgt
    · rw [LinearCombination.Sorted, List.pairwise_cons]
      refine ⟨?_, List.pairwise_cons.mpr ⟨hhead, hrest⟩⟩
      intro q hq
      rcases List.mem_cons.mp hq with h1 | h2
      · rw [h1]; exact hcmp
      · exact Index.cmp_lt_trans hcmp (hhead q h2)
    · exact List.pairwise_cons.mpr ⟨hhead, hrest⟩
    · rw [LinearCombination.Sorted, List.pairwise_cons]
      refine ⟨?_, ih hrest⟩
      intro q hq
      rcases LinearCombination.fst_mem_insertTerm hq with h1 | ⟨c0, h2⟩
      · rw [h1]; exact (Index.cmp_gt_iff _ _).mp hcmp
      · exact hhead (q.1, c0) h2

/-- Embeds the `SNARK<F>` trait of `snark/src/lib.rs`.  The associated types
become type parameters; every operation returning `Result<_, Error>` becomes
an `Except Err` value.  Public inputs are `&Vec<F>`, modelled as `List F`. -/
structure SNARK (F PK VK Pf PVK Circuit Rng Err : Type) where
  circuit_specific_setup : Circuit → Rng → Except Err (PK × VK)
  prove : PK → Circuit → Rng → Except Err Pf
  verify : VK → List F → Pf → Except Err Bool
  process_vk : VK → Except Err PVK
  verify_with_processed_vk : PVK → List F → Pf → Except Err Bool

/-- Modelled from the spec: the verify/process_vk equivalence law of §4.4,
a contract imposed on implementors which the Rust trait declaration cannot
express.  A lawful implementation is a `SNARK` together with a proof that
`verify(vk, input, proof)` equals running `process_vk` and then
`verify_with_processed_vk` on the same input and proof. -/
structure LawfulSNARK (F PK VK Pf PVK Circuit Rng Err : Type) extends
    SNARK F PK VK Pf PVK Circuit Rng Err where
  verify_equivalence : ∀ (vk : VK) (input : List F) (pf : Pf),
    ((process_vk vk).bind fun pvk => verify_with_processed_vk pvk input pf) =
      verify vk input pf

/-- A concrete lawful implementation, showing `LawfulSNARK` is inhabited:
every operation succeeds trivially and verification always accepts. -/
def trivialLawfulSNARK : LawfulSNARK Unit Unit Unit Unit Unit Unit Unit Unit where
  circuit_specific_setup := fun _ _ => .ok ((), ())
  prove := fun _ _ _ => .ok ()
  verify := fun _ _ _ => .ok true
  process_vk := fun _ => .ok ()
  verify_with_processed_vk := fun _ _ _ => .ok true
  verify_equivalence := fun _ _ _ => rfl

/-- Embeds the `CircuitSpecificSetupSNARK<F>` trait: it adds a `setup`
operation whose default body forwards to `circuit_specific_setup`.  The
default method body is the field default. -/
structure CircuitSpecificSetupSNARK (F PK VK Pf PVK Circuit Rng Err : Type) extends
    SNARK F PK VK Pf PVK Circuit Rng Err where
  setup : Circuit → Rng → Except Err (PK × VK) :=
    fun circuit rng => toSNARK.circuit_specific_setup circuit rng

/-- An implementation of `CircuitSpecificSetupSNARK` that keeps the default
`setup` body, as a Rust `impl` block with no `setup` override does. -/
def CircuitSpecificSetupSNARK.ofSNARK {F PK VK Pf PVK Circuit Rng Err : Type}
    (base : SNARK F PK VK Pf PVK Circuit Rng Err) :
    CircuitSpecificSetupSNARK F PK VK Pf PVK Circuit Rng Err :=
  { toSNARK := base }

/-- Embeds `pub enum UniversalSetupIndexResult<KeyPair, Bound>`. -/
inductive UniversalSetupIndexResult (KeyPair Bound : Type) where
  | Successful : KeyPair → UniversalSetupIndexResult KeyPair Bound
  | NeedLargerBound : Bound → UniversalSetupIndexResult KeyPair Bound

/-- Embeds the `UniversalSetupSNARK<F>` trait: `universal_setup` produces
public parameters from a computation bound, and `index` derives a key pair,
returning `Result<UniversalSetupIndexResult<(PK, VK), Bound>, Error>`. -/
structure UniversalSetupSNARK (F PK VK Pf PVK Circuit Rng Err CB PP : Type) extends
    SNARK F PK VK Pf PVK Circuit Rng Err where
  universal_setup : CB → Rng → Except Err PP
  index : PP → Circuit → Rng →
    Except Err (UniversalSetupIndexResult (PK × VK) CB)

/-- A usize round-trip: deserializing the fixed-width encoding of a value
below `256 ^ usizeSize` recovers the value and consumes all bytes. -/
theorem deserializeUsize_serializeUsize (n : Nat) (h : n < 256 ^ usizeSize) :
    deserializeUsize (serializeUsize n) = some (n, []) := by
  unfold deserializeUsize serializeUsize
  have hlen : (natToLEBytes usizeSize n).length = usizeSize :=
    length_natToLEBytes _ _
  rw [if_pos (le_of_eq hlen.symm), List.take_of_length_le (le_of_eq hlen),
    List.drop_eq_nil_of_le (le_of_eq hlen), leBytesToNat_natToLEBytes,
    Nat.mod_eq_of_lt h]

/-- C1: for all wrapped integers, `Input` indices compare strictly below
`Aux` indices, and same-tag indices compare exactly as their integers. -/
theorem C1_index_total_order (m n : Nat) :
    Index.cmp (Index.Input m) (Index.Aux n) = Ordering.lt ∧
    Index.cmp (Index.Aux n) (Index.Input m) = Ordering.gt ∧
    Index.cmp (Index.Input m) (Index.Input n) = compare m n ∧
    Index.cmp (Index.Aux m) (Index.Aux n) = compare m n :=
  ⟨rfl, rfl, rfl, rfl⟩

/-- C2: deserializing the bytes produced by serializing any `Index` whose
inner integer fits a machine word yields exactly that `Index` back, with all
bytes consumed; `Input` and `Aux` stay distinguishable. -/
theorem C2_index_round_trip (i : Index) (h : i.inner < 2 ^ (8 * usizeSize)) :
    Index.deserialize (Index.serialize i) = some (i, []) := by
  have hb : (2 : Nat) ^ (8 * usizeSize) = 256 ^ usizeSize := by
    norm_num [pow_mul]
  cases i with
  | Input n =>
    have hn : n < 256 ^ usizeSize := hb ▸ h
    show Index.deserialize (serializeBool true ++ serializeUsize n) = _
    simp [Index.deserialize, serializeBool, deserializeBool,
      deserializeUsize_serializeUsize n hn]
  | Aux n =>
    have hn : n < 256 ^ usizeSize := hb ▸ h
    show Index.deserialize (serializeBool false ++ serializeUsize n) = _
    simp [Index.deserialize, serializeBool, deserializeBool,
      deserializeUsize_serializeUsize n hn]

/-- C2 witness: `Index::Input(32)` and `Index::Aux(32)` both round-trip and
remain distinguishable. -/
theorem C2_index_round_trip_witness :
    ((Index.Input 32).inner < 2 ^ (8 * usizeSize) ∧
      Index.deserialize (Index.serialize (Index.Input 32)) =
        some (Index.Input 32, [])) ∧
    ((Index.Aux 32).inner < 2 ^ (8 * usizeSize) ∧
      Index.deserialize (Index.serialize (Index.Aux 32)) =
        some (Index.Aux 32, [])) ∧
    Index.Input 32 ≠ Index.Aux 32 :=
  ⟨⟨by decide, C2_index_round_trip (Index.Input 32) (by decide)⟩,
    ⟨by decide, C2_index_round_trip (Index.Aux 32) (by decide)⟩,
    by decide⟩

/-- C3: term insertion keeps the pairs strictly sorted by variable with no
variable twice, and inserting `(c1, x)` then `(c2, x)` yields the single
entry `(x, c1 + c2)`. -/
theorem C3_lc_invariant {F : Type} [Field F] (lc : LinearCombination F)
    (h : lc.Sorted) (coeff c1 c2 : F) (var x : Variable) :
    (LinearCombination.insertTerm lc coeff var).Sorted ∧
    List.Pairwise (fun p q => p.1 ≠ q.1)
      (LinearCombination.insertTerm lc coeff var) ∧
    LinearCombination.insertTerm
      (LinearCombination.insertTerm ([] : LinearCombination F) c1 x) c2 x =
      [(x, c1 + c2)] := by
  have hsorted := LinearCombination.insertTerm_sorted h coeff var
  refine ⟨hsorted, ?_, ?_⟩
  · exact hsorted.imp fun hpq he =>
      Index.cmp_lt_ne hpq (congrArg Variable.idx he)
  · have hx : Index.cmp x.idx x.idx = Ordering.eq :=
      (Index.cmp_eq_iff x.idx x.idx).mpr rfl
    show LinearCombination.insertTerm [(x, c1)] c2 x = [(x, c1 + c2)]
    simp [LinearCombination.insertTerm, hx]

/-- C3 witness: concrete insertions over `ℚ`. -/
theorem C3_lc_invariant_witness :
    (LinearCombination.insertTerm ([] : LinearCombination ℚ) 1
      ⟨Index.Input 0⟩).Sorted ∧
    List.Pairwise (fun p q => p.1 ≠ q.1)
      (LinearCombination.insertTerm ([] : LinearCombination ℚ) 1
        ⟨Index.Input 0⟩) ∧
    LinearCombination.insertTerm
      (LinearCombination.insertTerm ([] : LinearCombination ℚ) 2
        ⟨Index.Aux 1⟩) 3 ⟨Index.Aux 1⟩ = [(⟨Index.Aux 1⟩, 2 + 3)] :=
  C3_lc_invariant ([] : LinearCombination ℚ) List.Pairwise.nil 1 2 3
    ⟨Index.Input 0⟩ ⟨Index.Aux 1⟩

/-- C4: for every lawful implementation, verifying with the verifying key
directly gives the same result as processing the key and verifying with the
processed key. -/
theorem C4_verify_equivalence_law {F PK VK Pf PVK Circuit Rng Err : Type}
    (S : LawfulSNARK F PK VK Pf PVK Circuit Rng Err) (vk : VK)
    (input : List F) (pf : Pf) :
    ((S.process_vk vk).bind fun pvk =>
      S.verify_with_processed_vk pvk input pf) = S.verify vk input pf :=
  S.verify_equivalence vk input pf

/-- C4 witness: the law instantiated at the concrete trivial implementation,
showing the lawful-implementation hypothesis is satisfiable. -/
theorem C4_verify_equivalence_law_witness :
    ((trivialLawfulSNARK.process_vk ()).bind fun pvk =>
      trivialLawfulSNARK.verify_with_processed_vk pvk [] ()) =
      trivialLawfulSNARK.verify () [] () :=
  C4_verify_equivalence_law trivialLawfulSNARK () [] ()

/-- C5: the success value of `index` is exactly one of `Successful` and
`NeedLargerBound`; every outcome is an error, a `Successful`, or a
`NeedLargerBound`, and a `NeedLargerBound` result is never the error
channel, nor equal to any `Successful` value. -/
theorem C5_index_outcomes {F PK VK Pf PVK Circuit Rng Err CB PP : Type}
    (S : UniversalSetupSNARK F PK VK Pf PVK Circuit Rng Err CB PP)
    (pp : PP) (circuit : Circuit) (rng : Rng) :
    ((∃ e, S.index pp circuit rng = Except.error e) ∨
      (∃ kp, S.index pp circuit rng =
        Except.ok (UniversalSetupIndexResult.Successful kp)) ∨
      (∃ b, S.index pp circuit rng =
        Except.ok (UniversalSetupIndexResult.NeedLargerBound b))) ∧
    (∀ (b : CB) (e : Err),
      (Except.ok (UniversalSetupIndexResult.NeedLargerBound b) :
        Except Err (UniversalSetupIndexResult (PK × VK) CB)) ≠
        Except.error e) ∧
    (∀ (kp : PK × VK) (b : CB),
      (UniversalSetupIndexResult.Successful kp :
        UniversalSetupIndexResult (PK × VK) CB) ≠
        UniversalSetupIndexResult.NeedLargerBound b) := by
  refine ⟨?_, fun b e hc => Except.noConfusion hc,
    fun kp b hc => UniversalSetupIndexResult.noConfusion hc⟩
  rcases hr : S.index pp circuit rng with e | r
  · exact Or.inl ⟨e, rfl⟩
  · cases r with
    | Successful kp => exact Or.inr (Or.inl ⟨kp, rfl⟩)
    | NeedLargerBound b => exact Or.inr (Or.inr ⟨b, rfl⟩)

/-- C6: an implementation keeping the default `setup` body returns exactly
the result of `circuit_specific_setup` on the same arguments. -/
theorem C6_default_setup_forwards {F PK VK Pf PVK Circuit Rng Err : Type}
    (base : SNARK F PK VK Pf PVK Circuit Rng Err) (circuit : Circuit)
    (rng : Rng) :
    (CircuitSpecificSetupSNARK.ofSNARK base).setup circuit rng =
      base.circuit_specific_setup circuit rng :=
  rfl

/-- C7: serializing `Input(n)` writes tag byte 1 (true) then the fixed-width
encoding of `n`; serializing `Aux(n)` writes tag byte 0 (false) then the
same fixed-width encoding, which is exactly `usizeSize` bytes long. -/
theorem C7_serialize_layout (n : Nat) :
    Index.serialize (Index.Input n) = 1 :: natToLEBytes usizeSize n ∧
    Index.serialize (Index.Aux n) = 0 :: natToLEBytes usizeSize n ∧
    (natToLEBytes usizeSize n).length = usizeSize :=
  ⟨rfl, rfl, length_natToLEBytes _ _⟩

/-- C8: the reported serialized size of every `Index` is the constant
`usize` size plus one, the compressed and uncompressed sizes coincide, and
the actual byte output has exactly that length. -/
theorem C8_serialized_size_constant (i : Index) :
    Index.serialized_size i = usizeSERIALIZED_SIZE + 1 ∧
    Index.UNCOMPRESSED_SIZE = Index.SERIALIZED_SIZE ∧
    (Index.serialize i).length = Index.serialized_size i := by
  refine ⟨rfl, rfl, ?_⟩
  cases i <;>
    simp [Index.serialize, serializeBool, serializeUsize,
      Index.serialized_size, Index.SERIALIZED_SIZE, usizeSERIALIZED_SIZE,
      length_natToLEBytes, Nat.add_comm]

/-- C9: `new_unchecked` stores an arbitrary index unvalidated,
`get_unchecked` reads it back unchanged, and comparing two `Variable`s is
exactly comparing their underlying `Index`es. -/
theorem C9_variable_unchecked_round_trip (idx : Index) (a b : Variable) :
    (Variable.new_unchecked idx).get_unchecked = idx ∧
    Variable.cmp a b = Index.cmp a.get_unchecked b.get_unchecked :=
  ⟨rfl, rfl⟩

/-- C10: `partial_cmp` always returns `Some` of the total comparison, so the
partial and total orders agree everywhere. -/
theorem C10_partCmp_total (a b : Index) :
    Index.partCmp a b = some (Index.cmp a b) ∧ Index.partCmp a b ≠ none :=
  ⟨rfl, fun hc => Option.noConfusion hc⟩

end SnarkSpec
